import Mathlib

/-!
# Pixelation engine of `src/src/main.jsx`, shallowly embedded

The repository is a React image pixelator; its algorithmic core is the
nested block loop inside the `pixelateImage` handler (lines 236-280 of
`src/src/main.jsx`).  The handler

* resizes the hidden canvas to the image (which clears the canvas),
* draws the loaded image onto it (`ctx.drawImage(originalImage, 0, 0)`),
* snapshots the pixels (`ctx.getImageData`) into the flat RGBA array `data`,
* then, for `y` and `x` stepping by `pixelSize` from `(0, 0)`, reads the
  red, green and blue bytes of the pixel at `(x, y)` from the snapshot and
  paints the block `[x, x + pixelSize) × [y, y + pixelSize)` on the canvas
  with `ctx.fillRect` and the opaque fill style `rgb(red, green, blue)`.

Everything below embeds exactly that.  Machine bytes are `Nat`s (the
channel values are read and written unchanged, so no wrap-around can
occur); the canvas is a `PixelBuffer`; the JS `for` loops become
fuel-indexed recursions whose `none` result means the loop has not exited
within the given number of iterations (for `pixelSize ≥ 1` the fuel chosen
in `pixelateImage` always suffices, which is proved, and for
`pixelSize = 0` the loops provably exhaust every fuel, which is how the
code's infinite loop on `blockSize < 1` is rendered).
-/

/-- An RGBA raster in the layout of `ctx.getImageData`: `data` is the flat
channel array, four bytes per pixel, row-major, so channel `k` (0 red,
1 green, 2 blue, 3 alpha) of the pixel at `(x, y)` sits at index
`(y * width + x) * 4 + k`. -/
structure PixelBuffer where
  width : Nat
  height : Nat
  data : List Nat
  deriving DecidableEq

/-- A well-formed buffer: positive dimensions and exactly one RGBA record
per pixel. -/
def PixelBuffer.Valid (b : PixelBuffer) : Prop :=
  0 < b.width ∧ 0 < b.height ∧ b.data.length = 4 * (b.width * b.height)

instance (b : PixelBuffer) : Decidable b.Valid :=
  inferInstanceAs (Decidable (0 < b.width ∧ 0 < b.height ∧
    b.data.length = 4 * (b.width * b.height)))

/-- Channel `k` of the pixel at `(x, y)`, as the code indexes it:
`data[(y * width + x) * 4 + k]` (0 for an index past the end, which never
happens at in-bounds coordinates). -/
def PixelBuffer.chan (b : PixelBuffer) (x y k : Nat) : Nat :=
  b.data.getD ((y * b.width + x) * 4 + k) 0

/-- `ctx.fillRect(x, y, w, h)` with `ctx.fillStyle = rgb(r, g, b)`: every
canvas pixel whose position lies in the rectangle is repainted with the
opaque color `(r, g, b, 255)`; positions outside `[0, width) × [0, height)`
have no index in `data`, so the paint is clipped to the canvas exactly as
the canvas API clips it. -/
def fillRect (c : PixelBuffer) (x y w h r g b : Nat) : PixelBuffer :=
  { c with
    data := (List.range c.data.length).map fun i =>
      if x ≤ i / 4 % c.width ∧ i / 4 % c.width < x + w ∧
          y ≤ i / 4 / c.width ∧ i / 4 / c.width < y + h then
        if i % 4 = 0 then r
        else if i % 4 = 1 then g
        else if i % 4 = 2 then b
        else 255
      else c.data.getD i 0 }

/-- The inner `for (let x = 0; x < canvas.width; x += pixelSize)` loop of
`pixelateImage` at row block `y`: read the top-left pixel of the block from
the `data` snapshot, fill the block on the canvas, advance `x` by
`pixelSize`.  `fuel` bounds the remaining iterations; `none` means the loop
has not exited after `fuel` of them. -/
def xLoop (data : List Nat) (w pixelSize y : Nat) :
    Nat → PixelBuffer → Nat → Option PixelBuffer
  | 0, canvas, x => if x < w then none else some canvas
  | fuel + 1, canvas, x =>
    if x < w then
      let pixelIndex := (y * w + x) * 4
      let red := data.getD pixelIndex 0
      let green := data.getD (pixelIndex + 1) 0
      let blue := data.getD (pixelIndex + 2) 0
      xLoop data w pixelSize y fuel
        (fillRect canvas x y pixelSize pixelSize red green blue)
        (x + pixelSize)
    else some canvas

/-- The outer `for (let y = 0; y < canvas.height; y += pixelSize)` loop:
run the inner loop over the row block, advance `y` by `pixelSize`.  The
inner loop gets fuel `w`, enough for any `pixelSize ≥ 1`. -/
def yLoop (data : List Nat) (w h pixelSize : Nat) :
    Nat → PixelBuffer → Nat → Option PixelBuffer
  | 0, canvas, y => if y < h then none else some canvas
  | fuel + 1, canvas, y =>
    if y < h then
      match xLoop data w pixelSize y w canvas 0 with
      | none => none
      | some canvas2 => yLoop data w h pixelSize fuel canvas2 (y + pixelSize)
    else some canvas

/-- The processing body of `pixelateImage` on an already-decoded image:
after the setup (resize clears the canvas, `drawImage` then makes it equal
the source, `getImageData` snapshots it into `data`) the nested block loop
repaints the canvas, which is then the returned output.  The outer fuel
`src.height` suffices for any `pixelSize ≥ 1`. -/
def pixelateImage (src : PixelBuffer) (pixelSize : Nat) : Option PixelBuffer :=
  yLoop src.data src.width src.height pixelSize src.height src 0

/-- The representative color the loop samples for the block with top-left
corner `(x, y)`: the red, green, blue bytes of the snapshot at
`(y * w + x) * 4`, and 255 for alpha (the `rgb(...)` fill style is
opaque). -/
def sampleChan (data : List Nat) (w y x k : Nat) : Nat :=
  if k = 0 then data.getD ((y * w + x) * 4) 0
  else if k = 1 then data.getD ((y * w + x) * 4 + 1) 0
  else if k = 2 then data.getD ((y * w + x) * 4 + 2) 0
  else 255

/-- The component state `pixelateImage` touches: the loaded image
(`originalImage`, `none` before any upload) and the hidden canvas that is
reused across invocations. -/
structure AppState where
  originalImage : Option PixelBuffer
  canvas : PixelBuffer
  deriving DecidableEq

/-- `canvas.width = ...; canvas.height = ...`: assigning a canvas dimension
clears the canvas to transparent black. -/
def setCanvasSize (_c : PixelBuffer) (w h : Nat) : PixelBuffer :=
  ⟨w, h, List.replicate (4 * (w * h)) 0⟩

/-- `ctx.drawImage(img, 0, 0)`: source-over compositing of the image onto
the canvas.  A destination pixel that is fully transparent (alpha byte 0)
takes the image's bytes unchanged; the canvas here is always the
just-cleared one, so that is the only case the code reaches. -/
def drawImage (c : PixelBuffer) (img : PixelBuffer) : PixelBuffer :=
  ⟨c.width, c.height,
    (List.range c.data.length).map fun i =>
      if c.data.getD (i / 4 * 4 + 3) 0 = 0 then img.data.getD i 0
      else c.data.getD i 0⟩

/-- One click of the Pixelate button: the whole `pixelateImage` handler on
the component state.  `none` models the early `if (!originalImage) return`
and a block loop that does not finish; otherwise the result is the output
buffer (whose data URL the handler stores) together with the state after
the call — `originalImage` untouched, the canvas holding the output. -/
def pixelateInvocation (st : AppState) (pixelSize : Nat) :
    Option (PixelBuffer × AppState) :=
  match st.originalImage with
  | none => none
  | some img =>
    let canvas := setCanvasSize st.canvas img.width img.height
    let canvas := drawImage canvas img
    match yLoop img.data img.width img.height pixelSize img.height canvas 0 with
    | none => none
    | some canvas2 => some (canvas2, ⟨st.originalImage, canvas2⟩)

/-- 1×1 image whose only pixel is `(10, 20, 30, 40)` — deliberately not
fully opaque. -/
def demoA : PixelBuffer := ⟨1, 1, [10, 20, 30, 40]⟩

/-- 3×3 image with nine distinct pixel records, every channel value unique. -/
def demoB : PixelBuffer :=
  ⟨3, 3,
    [0, 1, 2, 3, 4, 5, 6, 7, 8, 9, 10, 11,
     12, 13, 14, 15, 16, 17, 18, 19, 20, 21, 22, 23,
     24, 25, 26, 27, 28, 29, 30, 31, 32, 33, 34, 35]⟩

/-- The spec's 4×4 scenario: pixel `(0, 0)` red `(255, 0, 0, 255)`, the
rest blue `(0, 0, 255, 255)`. -/
def demoC : PixelBuffer :=
  ⟨4, 4,
    [255, 0, 0, 255, 0, 0, 255, 255, 0, 0, 255, 255, 0, 0, 255, 255,
     0, 0, 255, 255, 0, 0, 255, 255, 0, 0, 255, 255, 0, 0, 255, 255,
     0, 0, 255, 255, 0, 0, 255, 255, 0, 0, 255, 255, 0, 0, 255, 255,
     0, 0, 255, 255, 0, 0, 255, 255, 0, 0, 255, 255, 0, 0, 255, 255]⟩

/-- 2×2 image with four distinct opaque pixels. -/
def demoD : PixelBuffer :=
  ⟨2, 2,
    [100, 101, 102, 255, 110, 111, 112, 255,
     120, 121, 122, 255, 130, 131, 132, 255]⟩

/-- What pixelating `demoD` at block size 2 yields: the whole image painted
with the RGB of its pixel `(0, 0)`, fully opaque. -/
def demoD2 : PixelBuffer :=
  ⟨2, 2,
    [100, 101, 102, 255, 100, 101, 102, 255,
     100, 101, 102, 255, 100, 101, 102, 255]⟩

/-! ## Index arithmetic of the flat RGBA layout -/

/-- The channel index of an in-bounds pixel is an in-bounds index. -/
lemma chanIdx_lt (w h px py k : Nat) (hpx : px < w) (hpy : py < h)
    (hk : k < 4) : (py * w + px) * 4 + k < 4 * (w * h) := by
  have h1 : py * w + px + 1 ≤ w * h := by
    calc py * w + px + 1 ≤ py * w + w := by omega
    _ = (py + 1) * w := by ring
    _ ≤ h * w := Nat.mul_le_mul_right w hpy
    _ = w * h := Nat.mul_comm h w
  calc (py * w + px) * 4 + k < (py * w + px + 1) * 4 := by omega
  _ ≤ (w * h) * 4 := Nat.mul_le_mul_right 4 h1
  _ = 4 * (w * h) := Nat.mul_comm _ _

/-- Recover `(px, py, k)` from a channel index. -/
lemma chanIdx_decode (w px py k : Nat) (hpx : px < w) (hk : k < 4) :
    ((py * w + px) * 4 + k) / 4 % w = px ∧
    ((py * w + px) * 4 + k) / 4 / w = py ∧
    ((py * w + px) * 4 + k) % 4 = k := by
  have hw : 0 < w := by omega
  have h4 : ((py * w + px) * 4 + k) / 4 = py * w + px := by omega
  have hm : ((py * w + px) * 4 + k) % 4 = k := by omega
  refine ⟨?_, ?_, hm⟩
  · rw [h4, Nat.add_comm (py * w) px, Nat.add_mul_mod_self_right,
      Nat.mod_eq_of_lt hpx]
  · rw [h4, Nat.add_comm (py * w) px, Nat.mul_comm py w,
      Nat.add_mul_div_left px py hw, Nat.div_eq_of_lt hpx, Nat.zero_add]

/-- `getD` through `(List.range n).map f`. -/
lemma getD_range_map (n i : Nat) (f : Nat → Nat) (hi : i < n) :
    ((List.range n).map f).getD i 0 = f i := by
  rw [List.getD_eq_getElem?_getD, List.getElem?_map, List.getElem?_range hi,
    Option.map_some']
  rfl

/-- Mapping `getD` over the index range of a list reproduces the list. -/
lemma range_map_getD (d : List Nat) :
    (List.range d.length).map (fun i => d.getD i 0) = d := by
  apply List.ext_getElem
  · simp
  · intro i h1 h2
    have hi : i < d.length := by simpa using h2
    simp only [List.getElem_map, List.getElem_range]
    rw [List.getD_eq_getElem?_getD, List.getElem?_eq_getElem hi]
    rfl

/-! ## What one `fillRect` does, pointwise -/

lemma fillRect_width (c : PixelBuffer) (x y w h r g b : Nat) :
    (fillRect c x y w h r g b).width = c.width := rfl

lemma fillRect_height (c : PixelBuffer) (x y w h r g b : Nat) :
    (fillRect c x y w h r g b).height = c.height := rfl

lemma fillRect_length (c : PixelBuffer) (x y w h r g b : Nat) :
    (fillRect c x y w h r g b).data.length = c.data.length := by
  simp [fillRect]

/-- A pixel inside the rectangle is repainted (opaque), one outside keeps
its channels. -/
lemma fillRect_chan (c : PixelBuffer) (x y rw rh r g b px py k w h : Nat)
    (hcw : c.width = w) (hch : c.height = h)
    (hclen : c.data.length = 4 * (w * h))
    (hpx : px < w) (hpy : py < h) (hk : k < 4) :
    (fillRect c x y rw rh r g b).chan px py k =
      if x ≤ px ∧ px < x + rw ∧ y ≤ py ∧ py < y + rh then
        if k = 0 then r else if k = 1 then g else if k = 2 then b else 255
      else c.chan px py k := by
  subst hcw hch
  have hi : (py * c.width + px) * 4 + k < c.data.length := by
    rw [hclen]; exact chanIdx_lt _ _ _ _ _ hpx hpy hk
  obtain ⟨e1, e2, e3⟩ := chanIdx_decode c.width px py k hpx hk
  unfold PixelBuffer.chan fillRect
  dsimp only
  rw [getD_range_map _ _ _ hi, e1, e2, e3]

/-! ## What the block loops compute, pointwise -/

/-- The inner loop, started at an aligned column `x0` with enough fuel:
it exits, preserves the canvas shape, paints every pixel of the row block
`[y, y + pixelSize)` at a column `≥ x0` with its block's sampled color,
and leaves every other pixel alone. -/
lemma xLoop_spec (data : List Nat) (w h pixelSize y : Nat)
    (hps : 0 < pixelSize) :
    ∀ (fuel x0 : Nat) (c : PixelBuffer), c.width = w → c.height = h →
      c.data.length = 4 * (w * h) → w ≤ x0 + fuel →
      (∃ j, x0 = j * pixelSize) →
      ∃ c2, xLoop data w pixelSize y fuel c x0 = some c2 ∧
        c2.width = w ∧ c2.height = h ∧ c2.data.length = 4 * (w * h) ∧
        ∀ px py k, px < w → py < h → k < 4 →
          c2.chan px py k =
            if x0 ≤ px ∧ y ≤ py ∧ py < y + pixelSize then
              sampleChan data w y (px / pixelSize * pixelSize) k
            else c.chan px py k := by
  intro fuel
  induction fuel with
  | zero =>
    intro x0 c hcw hch hclen hfuel _
    have hxw : ¬ x0 < w := by omega
    refine ⟨c, by simp only [xLoop, if_neg hxw], hcw, hch, hclen, ?_⟩
    intro px py k hpx hpy hk
    have hcond : ¬ (x0 ≤ px ∧ y ≤ py ∧ py < y + pixelSize) := by
      rintro ⟨h1, -, -⟩; omega
    rw [if_neg hcond]
  | succ fuel ih =>
    intro x0 c hcw hch hclen hfuel hal
    by_cases hxw : x0 < w
    · obtain ⟨j, hj⟩ := hal
      obtain ⟨c2, heq, hw2, hh2, hlen2, hchan2⟩ :=
        ih (x0 + pixelSize)
          (fillRect c x0 y pixelSize pixelSize
            (data.getD ((y * w + x0) * 4) 0)
            (data.getD ((y * w + x0) * 4 + 1) 0)
            (data.getD ((y * w + x0) * 4 + 2) 0))
          (by rw [fillRect_width]; exact hcw)
          (by rw [fillRect_height]; exact hch)
          (by rw [fillRect_length]; exact hclen)
          (by omega)
          ⟨j + 1, by rw [hj]; ring⟩
      refine ⟨c2, ?_, hw2, hh2, hlen2, ?_⟩
      · simp only [xLoop, if_pos hxw]
        exact heq
      · intro px py k hpx hpy hk
        rw [hchan2 px py k hpx hpy hk]
        by_cases hA : x0 + pixelSize ≤ px ∧ y ≤ py ∧ py < y + pixelSize
        · rw [if_pos hA, if_pos ⟨by omega, hA.2.1, hA.2.2⟩]
        · rw [if_neg hA,
            fillRect_chan c x0 y pixelSize pixelSize _ _ _ px py k w h
              hcw hch hclen hpx hpy hk]
          by_cases hB : x0 ≤ px ∧ y ≤ py ∧ py < y + pixelSize
          · have hpxlt : px < x0 + pixelSize := by
              by_contra hcon
              exact hA ⟨by omega, hB.2.1, hB.2.2⟩
            rw [if_pos ⟨hB.1, hpxlt, hB.2.1, hB.2.2⟩, if_pos hB]
            have hdiv : px / pixelSize = j := by
              apply Nat.div_eq_of_lt_le
              · rw [← hj]; exact hB.1
              · rw [show (j + 1) * pixelSize = x0 + pixelSize by rw [hj]; ring]
                exact hpxlt
            rw [hdiv, ← hj]
            rfl
          · rw [if_neg ?_, if_neg hB]
            rintro ⟨hB1, -, hB3, hB4⟩
            exact hB ⟨hB1, hB3, hB4⟩
    · refine ⟨c, by simp only [xLoop, if_neg hxw], hcw, hch, hclen, ?_⟩
      intro px py k hpx hpy hk
      have hcond : ¬ (x0 ≤ px ∧ y ≤ py ∧ py < y + pixelSize) := by
        rintro ⟨h1, -, -⟩; omega
      rw [if_neg hcond]

/-- The outer loop, started at an aligned row `y0` with enough fuel: it
exits, and every pixel at a row `≥ y0` carries its block-corner sample
while rows above `y0` are untouched. -/
lemma yLoop_spec (data : List Nat) (w h pixelSize : Nat) (hps : 0 < pixelSize) :
    ∀ (fuel y0 : Nat) (c : PixelBuffer), c.width = w → c.height = h →
      c.data.length = 4 * (w * h) → h ≤ y0 + fuel →
      (∃ j, y0 = j * pixelSize) →
      ∃ c2, yLoop data w h pixelSize fuel c y0 = some c2 ∧
        c2.width = w ∧ c2.height = h ∧ c2.data.length = 4 * (w * h) ∧
        ∀ px py k, px < w → py < h → k < 4 →
          c2.chan px py k =
            if y0 ≤ py then
              sampleChan data w (py / pixelSize * pixelSize)
                (px / pixelSize * pixelSize) k
            else c.chan px py k := by
  intro fuel
  induction fuel with
  | zero =>
    intro y0 c hcw hch hclen hfuel _
    have hyh : ¬ y0 < h := by omega
    refine ⟨c, by simp only [yLoop, if_neg hyh], hcw, hch, hclen, ?_⟩
    intro px py k hpx hpy hk
    have hcond : ¬ y0 ≤ py := by omega
    rw [if_neg hcond]
  | succ fuel ih =>
    intro y0 c hcw hch hclen hfuel hal
    by_cases hyh : y0 < h
    · obtain ⟨j, hj⟩ := hal
      obtain ⟨c1, heq1, hw1, hh1, hlen1, hchan1⟩ :=
        xLoop_spec data w h pixelSize y0 hps w 0 c hcw hch hclen (by omega)
          ⟨0, by ring⟩
      obtain ⟨c2, heq2, hw2, hh2, hlen2, hchan2⟩ :=
        ih (y0 + pixelSize) c1 hw1 hh1 hlen1 (by omega) ⟨j + 1, by rw [hj]; ring⟩
      refine ⟨c2, ?_, hw2, hh2, hlen2, ?_⟩
      · simp only [yLoop, if_pos hyh, heq1]
        exact heq2
      · intro px py k hpx hpy hk
        rw [hchan2 px py k hpx hpy hk]
        by_cases hA : y0 + pixelSize ≤ py
        · rw [if_pos hA, if_pos (by omega : y0 ≤ py)]
        · rw [if_neg hA, hchan1 px py k hpx hpy hk]
          by_cases hB : y0 ≤ py
          · rw [if_pos ⟨Nat.zero_le px, hB, by omega⟩, if_pos hB]
            have hdiv : py / pixelSize = j := by
              apply Nat.div_eq_of_lt_le
              · rw [← hj]; exact hB
              · rw [show (j + 1) * pixelSize = y0 + pixelSize by rw [hj]; ring]
                omega
            rw [hdiv, ← hj]
          · rw [if_neg ?_, if_neg hB]
            rintro ⟨-, hB2, -⟩
            exact hB hB2
    · refine ⟨c, by simp only [yLoop, if_neg hyh], hcw, hch, hclen, ?_⟩
      intro px py k hpx hpy hk
      have hcond : ¬ y0 ≤ py := by omega
      rw [if_neg hcond]

/-- Master characterization of `pixelateImage` for `pixelSize ≥ 1` on a
valid buffer: the loop finishes, the output has the source's dimensions,
and every output pixel carries the sample of its block's top-left corner
`(px / pixelSize * pixelSize, py / pixelSize * pixelSize)`. -/
lemma pixelateImage_spec (src : PixelBuffer) (pixelSize : Nat)
    (hps : 0 < pixelSize) (hv : src.Valid) :
    ∃ out, pixelateImage src pixelSize = some out ∧
      out.width = src.width ∧ out.height = src.height ∧
      out.data.length = 4 * (src.width * src.height) ∧
      ∀ px py k, px < src.width → py < src.height → k < 4 →
        out.chan px py k =
          sampleChan src.data src.width (py / pixelSize * pixelSize)
            (px / pixelSize * pixelSize) k := by
  obtain ⟨hw, hh, hlen⟩ := hv
  obtain ⟨c2, heq, hw2, hh2, hlen2, hchan2⟩ :=
    yLoop_spec src.data src.width src.height pixelSize hps src.height 0 src
      rfl rfl hlen (by omega) ⟨0, by ring⟩
  refine ⟨c2, heq, hw2, hh2, hlen2, ?_⟩
  intro px py k hpx hpy hk
  rw [hchan2 px py k hpx hpy hk, if_pos (Nat.zero_le py)]

/-! ## Buffer extensionality and derived facts -/

/-- Two buffers of the same valid shape whose channels agree at every
in-bounds coordinate are equal. -/
lemma PixelBuffer.eq_of_chan (b1 b2 : PixelBuffer) (w h : Nat)
    (hw1 : b1.width = w) (hw2 : b2.width = w)
    (hh1 : b1.height = h) (hh2 : b2.height = h) (hwpos : 0 < w)
    (hlen1 : b1.data.length = 4 * (w * h))
    (hlen2 : b2.data.length = 4 * (w * h))
    (hchan : ∀ px py k, px < w → py < h → k < 4 →
      b1.chan px py k = b2.chan px py k) : b1 = b2 := by
  have hdata : b1.data = b2.data := by
    apply List.ext_getElem (by rw [hlen1, hlen2])
    intro i hi1 hi2
    have hpx : i / 4 % w < w := Nat.mod_lt _ hwpos
    have hq : i / 4 < w * h := by
      have hbound : i < 4 * (w * h) := by rw [← hlen1]; exact hi1
      omega
    have hpy : i / 4 / w < h := by
      rw [Nat.div_lt_iff_lt_mul hwpos]
      calc i / 4 < w * h := hq
      _ = h * w := Nat.mul_comm w h
    have hk : i % 4 < 4 := by omega
    have e2 : i / 4 / w * w + i / 4 % w = i / 4 := by
      rw [Nat.mul_comm]; exact Nat.div_add_mod (i / 4) w
    have e3 : i / 4 * 4 + i % 4 = i := by omega
    have eidx : (i / 4 / w * w + i / 4 % w) * 4 + i % 4 = i := by rw [e2, e3]
    have hgd := hchan (i / 4 % w) (i / 4 / w) (i % 4) hpx hpy hk
    unfold PixelBuffer.chan at hgd
    rw [hw1, hw2, eidx] at hgd
    have t1 : b1.data.getD i 0 = b1.data[i] := by
      rw [List.getD_eq_getElem?_getD, List.getElem?_eq_getElem hi1]; rfl
    have t2 : b2.data.getD i 0 = b2.data[i] := by
      rw [List.getD_eq_getElem?_getD, List.getElem?_eq_getElem hi2]; rfl
    rw [← t1, ← t2]
    exact hgd
  cases b1
  cases b2
  dsimp only at hw1 hw2 hh1 hh2 hdata
  simp only [PixelBuffer.mk.injEq]
  exact ⟨hw1.trans hw2.symm, hh1.trans hh2.symm, hdata⟩

/-- For a color channel, the sampled value of a corner is the corner's
stored channel. -/
lemma sampleChan_chan (b : PixelBuffer) (qx qy k : Nat) (hk : k < 3) :
    sampleChan b.data b.width qy qx k = b.chan qx qy k := by
  unfold sampleChan PixelBuffer.chan
  interval_cases k <;> simp

/-- The block grid always starts at `(0, 0)`, so block corners are fixed
points of the corner map and a second run at the same block size reproduces
the first run's output. -/
lemma pixelateImage_idem (src : PixelBuffer) (n : Nat) (hps : 0 < n)
    (hv : src.Valid) :
    (pixelateImage src n).bind (fun o => pixelateImage o n) =
      pixelateImage src n := by
  obtain ⟨hw0, hh0, hlen0⟩ := hv
  obtain ⟨out, heq, hw, hh, hlen, hchan⟩ :=
    pixelateImage_spec src n hps ⟨hw0, hh0, hlen0⟩
  have hvout : out.Valid := by
    refine ⟨by rw [hw]; exact hw0, by rw [hh]; exact hh0, ?_⟩
    rw [hw, hh]; exact hlen
  obtain ⟨out2, heq2, hw2, hh2, hlen2, hchan2⟩ :=
    pixelateImage_spec out n hps hvout
  have hout : out2 = out := by
    apply PixelBuffer.eq_of_chan out2 out src.width src.height
      (by rw [hw2, hw]) hw (by rw [hh2, hh]) hh hw0
      (by rw [hw, hh] at hlen2; exact hlen2) hlen
    intro px py k hpx hpy hk
    have hqx : px / n * n ≤ px := Nat.div_mul_le_self px n
    have hqy : py / n * n ≤ py := Nat.div_mul_le_self py n
    have hqxw : px / n * n < src.width := by omega
    have hqyh : py / n * n < src.height := by omega
    have hfix : px / n * n / n * n = px / n * n := by
      rw [Nat.mul_div_cancel (px / n) hps]
    have hfiy : py / n * n / n * n = py / n * n := by
      rw [Nat.mul_div_cancel (py / n) hps]
    rw [hchan2 px py k (by rw [hw]; exact hpx) (by rw [hh]; exact hpy) hk,
      hchan px py k hpx hpy hk]
    by_cases hk3 : k < 3
    · rw [sampleChan_chan out (px / n * n) (py / n * n) k hk3,
        hchan (px / n * n) (py / n * n) k hqxw hqyh hk, hfix, hfiy]
    · have hk3' : k = 3 := by omega
      subst hk3'
      simp [sampleChan]
  rw [heq]
  show pixelateImage out n = some out
  rw [heq2, hout]

/-! ## The loops on `pixelSize = 0`: no iteration ever advances -/

/-- With `pixelSize = 0` the inner loop never advances `x`: on a
positive-width canvas it consumes every fuel at `x = 0` and never exits. -/
lemma xLoop_zero_none (data : List Nat) (w y : Nat) (hw : 0 < w) :
    ∀ (fuel : Nat) (c : PixelBuffer), xLoop data w 0 y fuel c 0 = none := by
  intro fuel
  induction fuel with
  | zero => intro c; simp only [xLoop, if_pos hw]
  | succ fuel ih =>
    intro c
    simp only [xLoop, if_pos hw]
    exact ih _

/-- Hence the outer loop, at any in-bounds row, also returns nothing for
any fuel: the code's `blockSize < 1` case is an infinite loop. -/
lemma yLoop_zero_none (data : List Nat) (w h : Nat) (hw : 0 < w) :
    ∀ (fuel : Nat) (c : PixelBuffer) (y : Nat), y < h →
      yLoop data w h 0 fuel c y = none := by
  intro fuel
  cases fuel with
  | zero => intro c y hy; simp only [yLoop, if_pos hy]
  | succ fuel =>
    intro c y hy
    simp only [yLoop, if_pos hy, xLoop_zero_none data w y hw]

/-- `pixelateImage` at block size 0 on a nonempty image: the loop never
finishes, and in particular no output buffer and no error value is ever
produced. -/
lemma pixelateImage_zero_none (src : PixelBuffer) (hw : 0 < src.width)
    (hh : 0 < src.height) : pixelateImage src 0 = none := by
  unfold pixelateImage
  exact yLoop_zero_none src.data src.width src.height hw src.height src 0 hh

/-! ## The invocation on the component state -/

lemma getD_replicate_zero (n i : Nat) :
    (List.replicate n (0 : Nat)).getD i 0 = 0 := by
  rw [List.getD_eq_getElem?_getD, List.getElem?_replicate]
  split <;> rfl

/-- Resizing clears the canvas, and `drawImage` onto the cleared canvas
reproduces the image byte for byte: the setup phase yields the image. -/
lemma drawImage_setCanvasSize (c img : PixelBuffer)
    (hlen : img.data.length = 4 * (img.width * img.height)) :
    drawImage (setCanvasSize c img.width img.height) img = img := by
  obtain ⟨w, h, d⟩ := img
  dsimp only at hlen
  unfold drawImage setCanvasSize
  dsimp only
  congr 1
  simp only [getD_replicate_zero, if_pos rfl, List.length_replicate]
  rw [← hlen]
  exact range_map_getD d

/-- The whole handler on a state with a loaded valid image is the pure
transform on that image: the setup erases whatever the canvas held. -/
lemma pixelateInvocation_eq (st : AppState) (img : PixelBuffer)
    (pixelSize : Nat) (himg : st.originalImage = some img)
    (hlen : img.data.length = 4 * (img.width * img.height)) :
    pixelateInvocation st pixelSize =
      (pixelateImage img pixelSize).map fun o => (o, AppState.mk (some img) o) := by
  unfold pixelateInvocation
  rw [himg]
  dsimp only
  rw [drawImage_setCanvasSize st.canvas img hlen]
  unfold pixelateImage
  cases yLoop img.data img.width img.height pixelSize img.height img 0 <;> rfl

/-! ## The claims -/

/-- C1, counterexample: at the 1×1 source whose pixel is `(10, 20, 30, 40)`,
`pixelate(source, 1)` is not pixel-identical to the source — the alpha
channel of the output pixel is 255, not 40. -/
theorem C1_counterexample : pixelateImage demoA 1 ≠ some demoA := by decide

/-- C1, amended: for every valid PixelBuffer source, `pixelate(source, 1)`
matches the source on the red, green and blue channels of every pixel and
sets every alpha channel to 255 — pixel-identical on the three color
channels (and on all four exactly when the source is fully opaque). -/
theorem C1_blocksize_one (src : PixelBuffer) (hv : src.Valid) :
    ∃ out, pixelateImage src 1 = some out ∧
      out.width = src.width ∧ out.height = src.height ∧
      ∀ px py, px < src.width → py < src.height →
        out.chan px py 0 = src.chan px py 0 ∧
        out.chan px py 1 = src.chan px py 1 ∧
        out.chan px py 2 = src.chan px py 2 ∧
        out.chan px py 3 = 255 := by
  obtain ⟨out, heq, hw, hh, hlen, hchan⟩ :=
    pixelateImage_spec src 1 Nat.one_pos hv
  refine ⟨out, heq, hw, hh, ?_⟩
  intro px py hpx hpy
  have h0 := hchan px py 0 hpx hpy (by omega)
  have h1 := hchan px py 1 hpx hpy (by omega)
  have h2 := hchan px py 2 hpx hpy (by omega)
  have h3 := hchan px py 3 hpx hpy (by omega)
  simp only [Nat.div_one, Nat.mul_one] at h0 h1 h2 h3
  refine ⟨?_, ?_, ?_, ?_⟩
  · rw [h0]; exact sampleChan_chan src px py 0 (by omega)
  · rw [h1]; exact sampleChan_chan src px py 1 (by omega)
  · rw [h2]; exact sampleChan_chan src px py 2 (by omega)
  · rw [h3]; rfl

/-- C1, witness: the amended statement at the 1×1 demo image. -/
theorem C1_witness :
    ∃ out, pixelateImage demoA 1 = some out ∧
      out.width = demoA.width ∧ out.height = demoA.height ∧
      ∀ px py, px < demoA.width → py < demoA.height →
        out.chan px py 0 = demoA.chan px py 0 ∧
        out.chan px py 1 = demoA.chan px py 1 ∧
        out.chan px py 2 = demoA.chan px py 2 ∧
        out.chan px py 3 = 255 :=
  C1_blocksize_one demoA (by decide)

/-- C2: for a block `(i, j)` whose full `pixelSize × pixelSize` extent lies
inside the image, every pixel of the block in the output has the red,
green and blue channels of the source pixel at the block's top-left
corner `(i * pixelSize, j * pixelSize)`. -/
theorem C2_full_block_topleft (src : PixelBuffer) (pixelSize i j px py k : Nat)
    (hps : 1 ≤ pixelSize) (hv : src.Valid)
    (hbx : i * pixelSize + pixelSize ≤ src.width)
    (hby : j * pixelSize + pixelSize ≤ src.height)
    (hpx1 : i * pixelSize ≤ px) (hpx2 : px < i * pixelSize + pixelSize)
    (hpy1 : j * pixelSize ≤ py) (hpy2 : py < j * pixelSize + pixelSize)
    (hk : k < 3) :
    ∃ out, pixelateImage src pixelSize = some out ∧
      out.chan px py k = src.chan (i * pixelSize) (j * pixelSize) k := by
  obtain ⟨out, heq, hw, hh, hlen, hchan⟩ :=
    pixelateImage_spec src pixelSize (by omega) hv
  have hdx : px / pixelSize = i :=
    Nat.div_eq_of_lt_le hpx1
      (by rw [show (i + 1) * pixelSize = i * pixelSize + pixelSize by ring]
          exact hpx2)
  have hdy : py / pixelSize = j :=
    Nat.div_eq_of_lt_le hpy1
      (by rw [show (j + 1) * pixelSize = j * pixelSize + pixelSize by ring]
          exact hpy2)
  have hchan1 := hchan px py k (by omega) (by omega) (by omega)
  rw [hdx, hdy] at hchan1
  refine ⟨out, heq, ?_⟩
  rw [hchan1]
  exact sampleChan_chan src (i * pixelSize) (j * pixelSize) k hk

/-- C2, witness: the spec's 4×4 red/blue scenario at block size 2, block
`(1, 1)`, pixel `(3, 3)`, red channel. -/
theorem C2_witness :
    ∃ out, pixelateImage demoC 2 = some out ∧
      out.chan 3 3 0 = demoC.chan (1 * 2) (1 * 2) 0 :=
  C2_full_block_topleft demoC 2 1 1 3 3 0 (by decide) (by decide) (by decide)
    (by decide) (by decide) (by decide) (by decide) (by decide) (by decide)

/-- C3: the output buffer has the source's width and height. -/
theorem C3_dims_preserved (src : PixelBuffer) (pixelSize : Nat)
    (hps : 1 ≤ pixelSize) (hv : src.Valid) :
    ∃ out, pixelateImage src pixelSize = some out ∧
      out.width = src.width ∧ out.height = src.height := by
  obtain ⟨out, heq, hw, hh, -, -⟩ :=
    pixelateImage_spec src pixelSize (by omega) hv
  exact ⟨out, heq, hw, hh⟩

/-- C3, witness: dimensions preserved at the 2×2 demo image, block size 3. -/
theorem C3_witness :
    ∃ out, pixelateImage demoD 3 = some out ∧
      out.width = demoD.width ∧ out.height = demoD.height :=
  C3_dims_preserved demoD 3 (by decide) (by decide)

/-- C4: the code performs no `blockSize` validation.  At `blockSize = 0`
(the sole value below 1) on the nonempty 1×1 demo image, the inner loop
never advances `x`, so for every fuel both loops return nothing:
the call loops forever, producing neither an output buffer nor an
`InvalidParameter` (or any other) error. -/
theorem C4_blocksize_zero_diverges :
    (∀ fuel : Nat, ∀ c : PixelBuffer, xLoop demoA.data 1 0 0 fuel c 0 = none) ∧
    (∀ fuel : Nat, yLoop demoA.data 1 1 0 fuel demoA 0 = none) ∧
    pixelateImage demoA 0 = none := by
  refine ⟨fun fuel c => xLoop_zero_none demoA.data 1 0 (by omega) fuel c,
    fun fuel => yLoop_zero_none demoA.data 1 1 (by omega) fuel demoA 0 (by omega),
    pixelateImage_zero_none demoA (by decide) (by decide)⟩

/-- C5, counterexample (the claim's negation): there is NO valid source and
`n ≥ 1` with `pixelate(pixelate(source, n), n) ≠ pixelate(source, n)`. -/
theorem C5_counterexample :
    ¬ ∃ (src : PixelBuffer) (n : Nat), src.Valid ∧ 1 ≤ n ∧
      (pixelateImage src n).bind (fun o => pixelateImage o n) ≠
        pixelateImage src n := by
  rintro ⟨src, n, hv, hn, hne⟩
  exact hne (pixelateImage_idem src n (by omega) hv)

/-- C5, amended: for every valid source and `n ≥ 1`, re-running at the same
block size reproduces the output exactly: the second run's block grid also
starts at `(0, 0)`, so it is aligned with the first's and block corners are
fixed points — `pixelate(pixelate(source, n), n) = pixelate(source, n)`. -/
theorem C5_repixelate_same_size (src : PixelBuffer) (n : Nat)
    (hv : src.Valid) (hn : 1 ≤ n) :
    (pixelateImage src n).bind (fun o => pixelateImage o n) =
      pixelateImage src n :=
  pixelateImage_idem src n (by omega) hv

/-- C5, witness: idempotence at the 3×3 demo image, block size 2. -/
theorem C5_witness :
    (pixelateImage demoB 2).bind (fun o => pixelateImage o 2) =
      pixelateImage demoB 2 :=
  C5_repixelate_same_size demoB 2 (by decide) (by decide)

/-- C6: the handler leaves `originalImage` untouched and its result does
not depend on the canvas contents left by earlier invocations: two states
holding the same loaded image — e.g. a freshly loaded one and one after
any earlier run at another block size — give identical results, and the
state after a run keeps the same source with the canvas holding the
output. -/
theorem C6_source_untouched_invocations_independent
    (st1 st2 : AppState) (img : PixelBuffer) (pixelSize : Nat)
    (hv : img.Valid) (hps : 1 ≤ pixelSize)
    (h1 : st1.originalImage = some img) (h2 : st2.originalImage = some img) :
    pixelateInvocation st1 pixelSize = pixelateInvocation st2 pixelSize ∧
    ∃ out st3, pixelateInvocation st1 pixelSize = some (out, st3) ∧
      st3.originalImage = st1.originalImage ∧ st3.canvas = out := by
  obtain ⟨hw0, hh0, hlen0⟩ := hv
  have e1 := pixelateInvocation_eq st1 img pixelSize h1 hlen0
  have e2 := pixelateInvocation_eq st2 img pixelSize h2 hlen0
  obtain ⟨out, heq, -, -, -, -⟩ :=
    pixelateImage_spec img pixelSize (by omega) ⟨hw0, hh0, hlen0⟩
  refine ⟨e1.trans e2.symm, out, ⟨some img, out⟩, ?_, ?_, rfl⟩
  · rw [e1, heq]; rfl
  · rw [h1]

/-- C6, witness: two states loading the 2×2 demo image whose canvases hold
different leftovers give the same result, with the source untouched. -/
theorem C6_witness :
    pixelateInvocation ⟨some demoD, demoA⟩ 2 =
      pixelateInvocation ⟨some demoD, demoB⟩ 2 ∧
    ∃ out st3, pixelateInvocation ⟨some demoD, demoA⟩ 2 = some (out, st3) ∧
      st3.originalImage = (⟨some demoD, demoA⟩ : AppState).originalImage ∧
      st3.canvas = out :=
  C6_source_untouched_invocations_independent ⟨some demoD, demoA⟩
    ⟨some demoD, demoB⟩ demoD 2 (by decide) (by decide) rfl rfl

/-- C7: for every valid source (dimensions multiples of the block size or
not) and every in-bounds pixel, the channel indices the sampling read uses
are in bounds of `data` (no out-of-range read), the output has exactly the
source's channel count (writes stay inside `[0, width) × [0, height)`),
and every pixel — partial edge blocks included — carries the RGB of its
block's top-left source pixel. -/
theorem C7_safety_partial_blocks (src : PixelBuffer) (pixelSize px py : Nat)
    (hps : 1 ≤ pixelSize) (hv : src.Valid)
    (hpx : px < src.width) (hpy : py < src.height) :
    ∃ out, pixelateImage src pixelSize = some out ∧
      out.data.length = src.data.length ∧
      (py / pixelSize * pixelSize * src.width + px / pixelSize * pixelSize) * 4 + 2
        < src.data.length ∧
      ∀ k, k < 3 → out.chan px py k =
        src.chan (px / pixelSize * pixelSize) (py / pixelSize * pixelSize) k := by
  obtain ⟨hw0, hh0, hlen0⟩ := hv
  obtain ⟨out, heq, hw, hh, hlen, hchan⟩ :=
    pixelateImage_spec src pixelSize (by omega) ⟨hw0, hh0, hlen0⟩
  have hqxw : px / pixelSize * pixelSize < src.width := by
    have := Nat.div_mul_le_self px pixelSize
    omega
  have hqyh : py / pixelSize * pixelSize < src.height := by
    have := Nat.div_mul_le_self py pixelSize
    omega
  refine ⟨out, heq, by rw [hlen, hlen0], ?_, ?_⟩
  · rw [hlen0]
    exact chanIdx_lt src.width src.height (px / pixelSize * pixelSize)
      (py / pixelSize * pixelSize) 2 hqxw hqyh (by omega)
  · intro k hk
    rw [hchan px py k hpx hpy (by omega)]
    exact sampleChan_chan src _ _ k hk

/-- C7, witness: the spec's 3×3 image at block size 2, at pixel `(2, 2)` of
the partial 1×1 corner block. -/
theorem C7_witness :
    ∃ out, pixelateImage demoB 2 = some out ∧
      out.data.length = demoB.data.length ∧
      (2 / 2 * 2 * demoB.width + 2 / 2 * 2) * 4 + 2 < demoB.data.length ∧
      ∀ k, k < 3 → out.chan 2 2 k = demoB.chan (2 / 2 * 2) (2 / 2 * 2) k :=
  C7_safety_partial_blocks demoB 2 2 2 (by decide) (by decide) (by decide)
    (by decide)

/-- C8, counterexample: at the 1×1 source whose pixel is `(10, 20, 30, 40)`
and block size 2 (greater than both dimensions), the output is not made of
copies of the source pixel at `(0, 0)`: its sole pixel is
`(10, 20, 30, 255)`. -/
theorem C8_counterexample :
    (pixelateImage demoA 2).map (fun o => o.data) ≠ some [10, 20, 30, 40] := by
  decide

/-- C8, amended: a block size exceeding both dimensions collapses the image
to a single block: every output pixel carries the RGB of the source pixel
at `(0, 0)` and alpha 255 — one solid opaque color, equal to the source
`(0, 0)` pixel record exactly when that pixel is fully opaque. -/
theorem C8_single_block (src : PixelBuffer) (pixelSize : Nat) (hv : src.Valid)
    (hwps : src.width < pixelSize) (hhps : src.height < pixelSize) :
    ∃ out, pixelateImage src pixelSize = some out ∧
      ∀ px py, px < src.width → py < src.height →
        out.chan px py 0 = src.chan 0 0 0 ∧
        out.chan px py 1 = src.chan 0 0 1 ∧
        out.chan px py 2 = src.chan 0 0 2 ∧
        out.chan px py 3 = 255 := by
  obtain ⟨hw0, hh0, hlen0⟩ := hv
  obtain ⟨out, heq, hw, hh, hlen, hchan⟩ :=
    pixelateImage_spec src pixelSize (by omega) ⟨hw0, hh0, hlen0⟩
  refine ⟨out, heq, ?_⟩
  intro px py hpx hpy
  have hdx : px / pixelSize = 0 := Nat.div_eq_of_lt (by omega)
  have hdy : py / pixelSize = 0 := Nat.div_eq_of_lt (by omega)
  have h0 := hchan px py 0 hpx hpy (by omega)
  have h1 := hchan px py 1 hpx hpy (by omega)
  have h2 := hchan px py 2 hpx hpy (by omega)
  have h3 := hchan px py 3 hpx hpy (by omega)
  rw [hdx, hdy, Nat.zero_mul] at h0 h1 h2 h3
  refine ⟨?_, ?_, ?_, ?_⟩
  · rw [h0]; exact sampleChan_chan src 0 0 0 (by omega)
  · rw [h1]; exact sampleChan_chan src 0 0 1 (by omega)
  · rw [h2]; exact sampleChan_chan src 0 0 2 (by omega)
  · rw [h3]; rfl

/-- C8, witness: the amended statement at the 2×2 demo image, block size 3. -/
theorem C8_witness :
    ∃ out, pixelateImage demoD 3 = some out ∧
      ∀ px py, px < demoD.width → py < demoD.height →
        out.chan px py 0 = demoD.chan 0 0 0 ∧
        out.chan px py 1 = demoD.chan 0 0 1 ∧
        out.chan px py 2 = demoD.chan 0 0 2 ∧
        out.chan px py 3 = 255 :=
  C8_single_block demoD 3 (by decide) (by decide) (by decide)

/-- C9: determinism and purity across invocations: running the handler
again from the state a successful run left behind — same loaded image,
same block size — produces the identical output buffer and the identical
state. -/
theorem C9_deterministic_rerun (st : AppState) (img out : PixelBuffer)
    (st2 : AppState) (pixelSize : Nat) (hv : img.Valid) (hps : 1 ≤ pixelSize)
    (himg : st.originalImage = some img)
    (hrun : pixelateInvocation st pixelSize = some (out, st2)) :
    pixelateInvocation st2 pixelSize = some (out, st2) := by
  obtain ⟨hw0, hh0, hlen0⟩ := hv
  have e1 := pixelateInvocation_eq st img pixelSize himg hlen0
  rw [e1] at hrun
  cases hpi : pixelateImage img pixelSize with
  | none => rw [hpi] at hrun; simp at hrun
  | some o =>
    rw [hpi, Option.map_some'] at hrun
    injection hrun with h2
    have h3 : o = out := congrArg Prod.fst h2
    have h4 : (⟨some img, o⟩ : AppState) = st2 := congrArg Prod.snd h2
    have himg2 : st2.originalImage = some img := by rw [← h4]
    have e2 := pixelateInvocation_eq st2 img pixelSize himg2 hlen0
    rw [e2, hpi, Option.map_some', ← h3, ← h4]

/-- C9, witness: rerunning from the state left by a successful run on the
2×2 demo image at block size 2 returns the same output and state. -/
theorem C9_witness :
    pixelateInvocation ⟨some demoD, demoD2⟩ 2 =
      some (demoD2, ⟨some demoD, demoD2⟩) :=
  C9_deterministic_rerun ⟨some demoD, demoA⟩ demoD demoD2
    ⟨some demoD, demoD2⟩ 2 (by decide) (by decide) rfl (by decide)

/-- C10: termination: for every valid source and `pixelSize ≥ 1` the nested
block loop exits within the embedded fuel — each iteration advances its
coordinate by `pixelSize ≥ 1` — and an output buffer is produced. -/
theorem C10_terminates (src : PixelBuffer) (pixelSize : Nat)
    (hps : 1 ≤ pixelSize) (hv : src.Valid) :
    ∃ out, pixelateImage src pixelSize = some out := by
  obtain ⟨out, heq, -, -, -, -⟩ :=
    pixelateImage_spec src pixelSize (by omega) hv
  exact ⟨out, heq⟩

/-- C10, witness: the loop exits on the 3×3 demo image at block size 5. -/
theorem C10_witness : ∃ out, pixelateImage demoB 5 = some out :=
  C10_terminates demoB 5 (by decide) (by decide)
